import Mathlib

/-!
Verification of the path-resolution and mutation engine of the `toml_ops`
crate (files `src/lib.rs` and `src/operator.rs`, which duplicate the same
logic).  The embedding below transcribes:

  * the document model `toml::Value` (tables as association lists, arrays as
    lists, scalars; datetime is an opaque payload; a 64-bit float is modelled
    by its bit pattern, a natural number, since the engine never computes
    with floats, it only stores and retrieves them);
  * the path splitter `PathBuilder::build_path` (Rust `str::split` on `/`
    and `.`, keeping empty segments; a `usize` builds an empty segment list);
  * `usize::from_str` (optional leading `+`, one or more ASCII digits, value
    below `2^64`);
  * the read resolver `path` / `PathSegment::apply` and the write resolver
    `path_mut` / `PathSegment::apply_mut`;
  * the rooting entry points `pathto` / `pathto_mut`;
  * the pipe (default extraction) operators `|`;
  * the mutable pointer `TomlPtrMut` and its mutation primitives
    (`put_string`, `put_integer`, `put_float`, `put_bool`, `push_table`,
    `push_array`, `assign`).  A Rust `Option<&mut Value>` is modelled as the
    whole document plus an optional resolved location (list of concrete
    table-key / array-index accessors), so that "the document is unchanged"
    is expressible.
-/

namespace TomlOps

/-- The document node, transcribing `toml::Value`.  A table is the ordered
key/value list of `toml::value::Table`, an array is `Vec<Value>`, and the
scalar payloads are the string, `i64`, `f64` (as raw bit pattern) and `bool`
payloads of the corresponding variants; `datetime` carries an opaque text
payload. -/
inductive Value where
  | str (s : String)
  | int (i : Int)
  | float (bits : Nat)
  | bool (b : Bool)
  | datetime (s : String)
  | array (items : List Value)
  | table (entries : List (String × Value))

/-- Table lookup: `Map::get`, first entry with the given key. -/
def lookupT : List (String × Value) → String → Option Value
  | [], _ => none
  | (k, v) :: rest, key => if k = key then some v else lookupT rest key

/-- Table insert: `Map::insert`, replacing the value in place when the key
exists and appending a new entry otherwise. -/
def insertT : List (String × Value) → String → Value → List (String × Value)
  | [], key, nv => [(key, nv)]
  | (k, v) :: rest, key, nv =>
      if k = key then (k, nv) :: rest else (k, v) :: insertT rest key nv

/-- A single programmatic resolution step: the `&str` or `usize` right-hand
side of the `/` operator. -/
inductive Step where
  | str (s : String)
  | num (n : Nat)

/-- `toml::value::Index`: `Value::get` dispatches a string step to a table
key lookup and a numeric step to an array index, every other combination
yields `None`.  `Value::get_mut` resolves to the same child. -/
def Value.get : Value → Step → Option Value
  | .table t, .str k => lookupT t k
  | .array a, .num i => a.get? i
  | _, _ => none

/-- The path delimiters of `PathBuilder for &str`: slash and dot. -/
def isDelim (c : Char) : Bool := c == '/' || c == '.'

/-- Rust `str::split(|c| c == '/' || c == '.')` on the character list of a
string: every delimiter occurrence separates segments, and empty segments
(from leading, trailing or consecutive delimiters) are preserved; the empty
string yields one empty segment. -/
def splitChars (cs : List Char) : List (List Char) :=
  match cs with
  | [] => [[]]
  | c :: rest =>
    if isDelim c then [] :: splitChars rest
    else match splitChars rest with
      | s :: ss => (c :: s) :: ss
      | [] => [[c]]

/-- `PathBuilder for &str`: the segment strings of a path string. -/
def buildPathStr (s : String) : List String :=
  (splitChars s.data).map String.mk

/-- `PathBuilder::build_path`: a string splits on the delimiters; a `usize`
uses the default implementation, which builds an empty segment list. -/
def buildPath : Step → List String
  | .str s => buildPathStr s
  | .num _ => []

/-- The optional leading `+` sign accepted by `usize::from_str`. -/
def dropPlusSign : List Char → List Char
  | [] => []
  | c :: r => if c = '+' then r else c :: r

/-- `usize::from_str`: an optional leading `+`, then one or more ASCII
digits, rejecting any other character and any value not below `2^64`
(64-bit `usize` overflow). -/
def parseUsizeChars (cs : List Char) : Option Nat :=
  let body := dropPlusSign cs
  if body = [] then none
  else if body.all Char.isDigit then
    let n := body.foldl (fun a c => a * 10 + (c.toNat - 48)) 0
    if n < 2 ^ 64 then some n else none
  else none

/-- `PathSegment::apply`, the read multi-segment walk: starting from the
current node, each non-empty segment dispatches on the node's tag — a table
looks the segment up as a key, an array uses the segment parsed as `usize`
as an index (and when the parse fails the target is left unchanged, i.e. the
segment is skipped), and any scalar returns `None` immediately.  A target of
`None` at the top of an iteration returns `None`. -/
def applySegs : Option Value → List String → Option Value
  | t, [] => t
  | none, _ :: _ => none
  | some v, p :: rest =>
    if p = "" then applySegs (some v) rest
    else match v with
      | .table t => applySegs (lookupT t p) rest
      | .array a =>
        match parseUsizeChars p.data with
        | some i => applySegs (a.get? i) rest
        | none => applySegs (some v) rest
      | _ => none

/-- `Value::get_mut` with a string key, as a value: a table child. -/
def getKeyV (v : Value) (k : String) : Option Value :=
  match v with
  | .table t => lookupT t k
  | _ => none

/-- `Value::get_mut` with a `usize` index, as a value: an array element. -/
def getIdxV (v : Value) (i : Nat) : Option Value :=
  match v with
  | .array a => a.get? i
  | _ => none

/-- `PathSegment::apply_mut` viewed as the value it resolves to: each
non-empty segment is first parsed as `usize`; on success it is used as an
array index (`get_mut(index)`), otherwise as a table key (`get_mut(key)`),
regardless of the current node's tag. -/
def applyMutSegsV : Option Value → List String → Option Value
  | t, [] => t
  | none, _ :: _ => none
  | some v, p :: rest =>
    if p = "" then applyMutSegsV (some v) rest
    else match parseUsizeChars p.data with
      | some i => applyMutSegsV (getIdxV v i) rest
      | none => applyMutSegsV (getKeyV v p) rest

/-- The read resolver `path` (`lib.rs`) and `TomlPtr::path` (`operator.rs`):
`None` is absorbing; otherwise try the whole step as one direct `get`; on a
miss split the step and run the multi-segment walk only when the split
produced more than one segment. -/
def pathFn (ov : Option Value) (p : Step) : Option Value :=
  match ov with
  | none => none
  | some v =>
    match v.get p with
    | some t => some t
    | none =>
      let segs := buildPath p
      if 1 < segs.length then applySegs (some v) segs else none

/-- The write resolver `path_mut` / `TomlPtrMut::path`, viewed as the value
it resolves to: a read-only `get` probe first (the node `get_mut` then
returns is the same child), and on a miss the `apply_mut` walk when the
split produced more than one segment. -/
def pathMutFn (ov : Option Value) (p : Step) : Option Value :=
  match ov with
  | none => none
  | some v =>
    match v.get p with
    | some t => some t
    | none =>
      let segs := buildPath p
      if 1 < segs.length then applyMutSegsV (some v) segs else none

/-- `PathOperator::pathto`: applies the split walk directly to the whole
document, with no direct whole-string lookup tier and no segment-count
guard. -/
def pathto (v : Value) (p : String) : Option Value :=
  applySegs (some v) (buildPathStr p)

/-- `PathOperator::pathto_mut`, viewed as the value it resolves to. -/
def pathto_mut (v : Value) (p : String) : Option Value :=
  applyMutSegsV (some v) (buildPathStr p)

/-- `Value::as_str`. -/
def Value.as_str : Value → Option String
  | .str s => some s
  | _ => none

/-- `Value::as_integer`. -/
def Value.as_integer : Value → Option Int
  | .int i => some i
  | _ => none

/-- `Value::as_float` (the stored bit pattern; an integer node yields
`None`, there is no numeric cast). -/
def Value.as_float : Value → Option Nat
  | .float b => some b
  | _ => none

/-- `Value::as_bool`. -/
def Value.as_bool : Value → Option Bool
  | .bool b => some b
  | _ => none

/-- Pipe operator `|` with a string default (`BitOr<&str>` / `BitOr<String>`
for `TomlPtr`): the stored string, or the default when the pointer is
`None` or the node is not a string. -/
def pipeStr (ov : Option Value) (rhs : String) : String :=
  match ov with
  | some v => (v.as_str).getD rhs
  | none => rhs

/-- Pipe operator `|` with an `i64` default. -/
def pipeInt (ov : Option Value) (rhs : Int) : Int :=
  match ov with
  | some v => (v.as_integer).getD rhs
  | none => rhs

/-- Pipe operator `|` with an `f64` default (bit patterns). -/
def pipeFloat (ov : Option Value) (rhs : Nat) : Nat :=
  match ov with
  | some v => (v.as_float).getD rhs
  | none => rhs

/-- Pipe operator `|` with a `bool` default. -/
def pipeBool (ov : Option Value) (rhs : Bool) : Bool :=
  match ov with
  | some v => (v.as_bool).getD rhs
  | none => rhs

/-- `Value::is_str`. -/
def Value.is_str : Value → Bool
  | .str _ => true
  | _ => false

/-- `Value::is_integer`. -/
def Value.is_integer : Value → Bool
  | .int _ => true
  | _ => false

/-- `Value::is_float`. -/
def Value.is_float : Value → Bool
  | .float _ => true
  | _ => false

/-- `Value::is_bool`. -/
def Value.is_bool : Value → Bool
  | .bool _ => true
  | _ => false

/-- `Value::is_table`. -/
def Value.is_table : Value → Bool
  | .table _ => true
  | _ => false

/-- `Value::is_array`. -/
def Value.is_array : Value → Bool
  | .array _ => true
  | _ => false

/-! ### The mutable pointer

Rust's `TomlPtrMut` holds an `Option<&mut Value>` into the caller's
document.  A mutable reference into a tree is modelled as a location: the
list of concrete accessors (table key or array index) leading from the root
to the referenced node.  The pointer model then carries the whole document
together with an optional location, so mutation can rebuild the document
and "the document is unchanged" is a statement about the carried root. -/

/-- One concrete accessor inside the tree: a table key or an array index. -/
inductive Seg where
  | key (k : String)
  | idx (i : Nat)

/-- The child a single accessor refers to (the shape of `Value::get`). -/
def Value.child : Value → Seg → Option Value
  | .table t, .key k => lookupT t k
  | .array a, .idx i => a.get? i
  | _, _ => none

/-- Replace the child an accessor refers to (writing through a `&mut`
obtained by `get_mut`); when the accessor misses, the node is returned
unchanged. -/
def Value.setChild : Value → Seg → Value → Value
  | .table t, .key k, nv => .table (insertT t k nv)
  | .array a, .idx i, nv => .array (a.set i nv)
  | v, _, _ => v

/-- The node a location refers to. -/
def getLoc : Value → List Seg → Option Value
  | v, [] => some v
  | v, s :: rest =>
    match v.child s with
    | some c => getLoc c rest
    | none => none

/-- Replace the node a location refers to, rebuilding the spine. -/
def setLoc : Value → List Seg → Value → Value
  | _, [], nv => nv
  | v, s :: rest, nv =>
    match v.child s with
    | some c => v.setChild s (setLoc c rest nv)
    | none => v

/-- The accessor a direct single-step `get_mut` descends through. -/
def segOfStep : Step → Seg
  | .str k => .key k
  | .num n => .idx n

/-- `PathSegment::apply_mut` as a location extension: each non-empty
segment is classified by parsing it as `usize` (index on success, key on
failure), the corresponding child is entered, and the accessor is recorded;
a missing child makes the whole walk fail. -/
def applyMutLoc : Value → List Seg → List String → Option (List Seg)
  | _, acc, [] => some acc
  | v, acc, p :: rest =>
    if p = "" then applyMutLoc v acc rest
    else match parseUsizeChars p.data with
      | some i =>
        match getIdxV v i with
        | some c => applyMutLoc c (acc ++ [Seg.idx i]) rest
        | none => none
      | none =>
        match getKeyV v p with
        | some c => applyMutLoc c (acc ++ [Seg.key p]) rest
        | none => none

/-- The mutable pointer: the caller's document plus an optional resolved
location (`Option<&mut Value>`; `none` is the invalidated pointer). -/
structure TomlPtrMut where
  root : Value
  loc : Option (List Seg)

/-- The `/` operator on `TomlPtrMut` (`path_mut`): `None` is absorbing; a
direct `get` probe of the whole step extends the location by one accessor;
on a miss, the `apply_mut` walk runs when the split produced more than one
segment.  The document is never modified by resolution. -/
def stepMut (ptr : TomlPtrMut) (p : Step) : TomlPtrMut :=
  match ptr.loc with
  | none => ⟨ptr.root, none⟩
  | some l =>
    match getLoc ptr.root l with
    | none => ⟨ptr.root, none⟩
    | some v =>
      match v.get p with
      | some _ => ⟨ptr.root, some (l ++ [segOfStep p])⟩
      | none =>
        let segs := buildPath p
        if 1 < segs.length then ⟨ptr.root, applyMutLoc v l segs⟩
        else ⟨ptr.root, none⟩

/-- `TomlPtrMut::put_string` (`<< &str` / `<< String`): requires the
referenced node to be a string scalar; on a match the node's value is
replaced in place and the pointer stays on it; otherwise the pointer is
invalidated and the document untouched. -/
def putString (ptr : TomlPtrMut) (rhs : String) : TomlPtrMut :=
  match ptr.loc with
  | none => ⟨ptr.root, none⟩
  | some l =>
    match getLoc ptr.root l with
    | some v =>
      if v.is_str then ⟨setLoc ptr.root l (.str rhs), some l⟩
      else ⟨ptr.root, none⟩
    | none => ⟨ptr.root, none⟩

/-- `TomlPtrMut::put_integer` (`<< i64`). -/
def putInteger (ptr : TomlPtrMut) (rhs : Int) : TomlPtrMut :=
  match ptr.loc with
  | none => ⟨ptr.root, none⟩
  | some l =>
    match getLoc ptr.root l with
    | some v =>
      if v.is_integer then ⟨setLoc ptr.root l (.int rhs), some l⟩
      else ⟨ptr.root, none⟩
    | none => ⟨ptr.root, none⟩

/-- `TomlPtrMut::put_float` (`<< f64`, bit patterns). -/
def putFloat (ptr : TomlPtrMut) (rhs : Nat) : TomlPtrMut :=
  match ptr.loc with
  | none => ⟨ptr.root, none⟩
  | some l =>
    match getLoc ptr.root l with
    | some v =>
      if v.is_float then ⟨setLoc ptr.root l (.float rhs), some l⟩
      else ⟨ptr.root, none⟩
    | none => ⟨ptr.root, none⟩

/-- `TomlPtrMut::put_bool` (`<< bool`). -/
def putBool (ptr : TomlPtrMut) (rhs : Bool) : TomlPtrMut :=
  match ptr.loc with
  | none => ⟨ptr.root, none⟩
  | some l =>
    match getLoc ptr.root l with
    | some v =>
      if v.is_bool then ⟨setLoc ptr.root l (.bool rhs), some l⟩
      else ⟨ptr.root, none⟩
    | none => ⟨ptr.root, none⟩

/-- `TomlPtrMut::push_table` (`<< (key, val)`): requires a table node;
inserts under the key (replacing any existing entry) and stays on the
table. -/
def pushTable (ptr : TomlPtrMut) (key : String) (val : Value) : TomlPtrMut :=
  match ptr.loc with
  | none => ⟨ptr.root, none⟩
  | some l =>
    match getLoc ptr.root l with
    | some (.table t) => ⟨setLoc ptr.root l (.table (insertT t key val)), some l⟩
    | _ => ⟨ptr.root, none⟩

/-- `TomlPtrMut::push_array` (`<< (val,)` / `<< [item]`): requires an array
node; appends the value and stays on the array. -/
def pushArray (ptr : TomlPtrMut) (val : Value) : TomlPtrMut :=
  match ptr.loc with
  | none => ⟨ptr.root, none⟩
  | some l =>
    match getLoc ptr.root l with
    | some (.array a) => ⟨setLoc ptr.root l (.array (a ++ [val])), some l⟩
    | _ => ⟨ptr.root, none⟩

/-- `TomlPtrMut::assign` (`<<=`): replace the referenced node's value
unconditionally when the pointer is bound, keeping the pointer on the node;
a silent no-op on an invalidated pointer. -/
def assignMut (ptr : TomlPtrMut) (rhs : Value) : TomlPtrMut :=
  match ptr.loc with
  | none => ptr
  | some l =>
    match getLoc ptr.root l with
    | some _ => ⟨setLoc ptr.root l rhs, some l⟩
    | none => ptr

/-- `TomlPtrMut::immut`: the value the mutable pointer references, as seen
by the pipe operators applied to a mutable pointer. -/
def mutView (ptr : TomlPtrMut) : Option Value :=
  ptr.loc.bind (getLoc ptr.root)

/-! ### Decimal rendering of an index

Used to compare an integer step `step(i)` with the string step carrying the
decimal text of `i`.  The renderer is fuel-based so that it reduces inside
the kernel; the fuel is always sufficient. -/

/-- The ASCII digit character of a value below ten. -/
def digitChar (d : Nat) : Char := Char.ofNat (48 + d)

/-- Accumulator-style decimal rendering: emit the digits of `n` (most
significant first) in front of `acc`, spending one unit of fuel per
digit. -/
def natCharsGo : Nat → Nat → List Char → List Char
  | 0, _, acc => acc
  | fuel + 1, n, acc =>
    if n = 0 then acc
    else natCharsGo fuel (n / 10) (digitChar (n % 10) :: acc)

/-- Decimal digits of `n` with `n` units of fuel (always enough). -/
def natCharsCore (n : Nat) (acc : List Char) : List Char := natCharsGo n n acc

/-- The decimal text of a natural number. -/
def natChars (n : Nat) : List Char :=
  if n = 0 then ['0'] else natCharsCore n []

/-! ### Definitions used to state the compound-path/chain comparison -/

/-- The text a step contributes to a compound path string: a string step
contributes itself, an integer step its decimal text. -/
def renderStep : Step → List Char
  | .str s => s.data
  | .num n => natChars n

/-- Join segment texts with the `/` delimiter. -/
def joinDelim : List (List Char) → List Char
  | [] => []
  | [s] => s
  | s :: rest => s ++ '/' :: joinDelim rest

/-- The compound path string equivalent to a chain of steps. -/
def compoundStr (steps : List Step) : String :=
  String.mk (joinDelim (steps.map renderStep))

/-- A step that can appear in a compound path and still denote the same
thing as an individual step: a string step must be non-empty, contain no
delimiter and not itself parse as a `usize`; an integer step must fit in a
`usize`. -/
def stepOkB : Step → Bool
  | .str s => !s.data.isEmpty && s.data.all (fun c => !isDelim c) &&
      (parseUsizeChars s.data).isNone
  | .num n => decide (n < 2 ^ 64)

/-- A step applied at a bound node on which the read walk's
dispatch-by-tag and the chain's dispatch-by-step-type agree: a string step
must not meet an array node and an integer step must not meet a table
node. -/
def stepNodeOk : Step → Value → Bool
  | .str _, .array _ => false
  | .num _, .table _ => false
  | _, _ => true

/-- Along the chained read resolution, every step applied at a bound node
satisfies `stepNodeOk`. -/
def chainOkR : Option Value → List Step → Bool
  | _, [] => true
  | none, _ :: _ => true
  | some v, s :: rest => stepNodeOk s v && chainOkR (pathFn (some v) s) rest

mutual
/-- Every table key of the document, at every depth, is free of the path
delimiters `/` and `.` (the hypothesis of the compound-path/chain
comparison). -/
def keysNoDelim : Value → Bool
  | .table t => keysNoDelimT t
  | .array a => keysNoDelimA a
  | _ => true
/-- `keysNoDelim` over the entries of a table. -/
def keysNoDelimT : List (String × Value) → Bool
  | [] => true
  | (k, v) :: rest =>
      k.data.all (fun c => !isDelim c) && keysNoDelim v && keysNoDelimT rest
/-- `keysNoDelim` over the elements of an array. -/
def keysNoDelimA : List Value → Bool
  | [] => true
  | v :: rest => keysNoDelim v && keysNoDelimA rest
end

/-- The document used to exhibit C10's consequence: one table whose single
key literally contains a delimiter. -/
def docSlashKey : Value := .table [("a/b", .int 7)]

/-- The document exhibiting the read walk's skip of a non-numeric segment
at an array node: a table with one key `"a"` holding a one-element array. -/
def docArrSkip : Value := .table [("a", .array [.str "x"])]

/-- A document with a purely-numeric table key that fits in `usize`. -/
def docNumKey : Value := .table [("t", .table [("1", .int 7)])]

/-- A document with a purely-digit table key whose value does not fit in
`usize` (its 20 digits spell `2^64`). -/
def docBigNumKey : Value :=
  .table [("a", .table [("18446744073709551616", .int 7)])]

/-- The spec's running example document: a `host` table with an `ip` string
and a `protocol` array. -/
def docHost : Value :=
  .table [("host", .table
    [("ip", .str "10.0.0.1"),
     ("protocol", .array [.str "tcp", .str "udp"])])]

/-! ### Helper lemmas -/

theorem lookupT_insertT_self (t : List (String × Value)) (k : String) (nv : Value) :
    lookupT (insertT t k nv) k = some nv := by
  induction t with
  | nil => simp [insertT, lookupT]
  | cons kv rest ih =>
    obtain ⟨k0, v0⟩ := kv
    by_cases h : k0 = k
    · simp [insertT, lookupT, h]
    · simp [insertT, lookupT, h, ih]

theorem get?_lt_of_some {l : List Value} {i : Nat} {c : Value}
    (h : l.get? i = some c) : i < l.length := by
  induction l generalizing i with
  | nil => simp [List.get?] at h
  | cons a rest ih =>
    cases i with
    | zero => simp
    | succ j =>
      simp only [List.get?] at h
      exact Nat.succ_lt_succ (ih h)

/-- Child of a replaced child: writing through an accessor that hits makes
the accessor refer to the written value. -/
theorem child_setChild_self {v : Value} {s : Seg} {c : Value} (nv : Value)
    (h : v.child s = some c) : (v.setChild s nv).child s = some nv := by
  cases v with
  | table t =>
    cases s with
    | key k => simp [Value.setChild, Value.child, lookupT_insertT_self]
    | idx i => simp [Value.child] at h
  | array a =>
    cases s with
    | key k => simp [Value.child] at h
    | idx i =>
      simp only [Value.child] at h
      simp [Value.setChild, Value.child,
        List.getElem?_set_eq_of_lt _ (get?_lt_of_some h)]
  | str s0 => simp [Value.child] at h
  | int i0 => simp [Value.child] at h
  | float b0 => simp [Value.child] at h
  | bool b0 => simp [Value.child] at h
  | datetime d0 => simp [Value.child] at h

/-- Reading back a location just written: `setLoc` followed by `getLoc` at
the same (previously valid) location yields the written value. -/
theorem getLoc_setLoc_self {r : Value} {l : List Seg} {v : Value} (nv : Value)
    (h : getLoc r l = some v) : getLoc (setLoc r l nv) l = some nv := by
  induction l generalizing r v with
  | nil => simp [getLoc, setLoc]
  | cons s rest ih =>
    simp only [getLoc] at h
    cases hc : r.child s with
    | none => rw [hc] at h; exact absurd h (by simp)
    | some c =>
      rw [hc] at h
      simp only [setLoc, hc, getLoc, child_setChild_self _ hc]
      exact ih h

theorem foldl_pathFn_none (l : List Step) :
    List.foldl pathFn none l = none := by
  induction l with
  | nil => rfl
  | cons s rest ih => simpa [pathFn] using ih

theorem foldl_pathMutFn_none (l : List Step) :
    List.foldl pathMutFn none l = none := by
  induction l with
  | nil => rfl
  | cons s rest ih => simpa [pathMutFn] using ih

theorem natCharsGo_congr (fuel : Nat) : ∀ (fuel2 n : Nat) (acc : List Char),
    n ≤ fuel → n ≤ fuel2 → natCharsGo fuel n acc = natCharsGo fuel2 n acc := by
  induction fuel with
  | zero =>
    intro fuel2 n acc h1 h2
    have hn : n = 0 := Nat.le_zero.1 h1
    subst hn
    cases fuel2 <;> simp [natCharsGo]
  | succ f ih =>
    intro fuel2 n acc h1 h2
    by_cases hn : n = 0
    · subst hn; cases fuel2 <;> simp [natCharsGo]
    · obtain ⟨f2, rfl⟩ : ∃ f2, fuel2 = f2 + 1 := ⟨fuel2 - 1, by omega⟩
      have hd : n / 10 < n := Nat.div_lt_self (Nat.pos_of_ne_zero hn) (by decide)
      simp only [natCharsGo, hn, if_false]
      exact ih f2 (n / 10) _ (by omega) (by omega)

theorem natCharsCore_rec {n : Nat} (hn : n ≠ 0) (acc : List Char) :
    natCharsCore n acc = natCharsCore (n / 10) (digitChar (n % 10) :: acc) := by
  obtain ⟨m, rfl⟩ : ∃ m, n = m + 1 := ⟨n - 1, by omega⟩
  have hd : (m + 1) / 10 < m + 1 := Nat.div_lt_self (by omega) (by decide)
  show natCharsGo (m + 1) (m + 1) acc = _
  simp only [natCharsGo, hn, if_false]
  exact natCharsGo_congr m _ _ _ (by omega) (le_refl _)

theorem natCharsCore_append (n : Nat) : ∀ acc : List Char,
    natCharsCore n acc = natCharsCore n [] ++ acc := by
  induction n using Nat.strong_induction_on with
  | _ n ih =>
    intro acc
    by_cases hn : n = 0
    · subst hn; rfl
    · have hd : n / 10 < n := Nat.div_lt_self (Nat.pos_of_ne_zero hn) (by decide)
      rw [natCharsCore_rec hn acc, natCharsCore_rec hn []]
      rw [ih (n / 10) hd (digitChar (n % 10) :: acc),
        ih (n / 10) hd [digitChar (n % 10)]]
      simp

theorem digitChar_toNat : ∀ d, d < 10 → (digitChar d).toNat = 48 + d := by decide

theorem digitChar_isDigit : ∀ d, d < 10 → (digitChar d).isDigit = true := by decide

theorem natCharsCore_val (n : Nat) : ∀ a : Nat,
    List.foldl (fun a c => a * 10 + (c.toNat - 48)) a (natCharsCore n []) =
      a * 10 ^ (natCharsCore n []).length + n := by
  induction n using Nat.strong_induction_on with
  | _ n ih =>
    intro a
    by_cases hn : n = 0
    · subst hn; simp [natCharsCore, natCharsGo]
    · have hd : n / 10 < n := Nat.div_lt_self (Nat.pos_of_ne_zero hn) (by decide)
      have hsplit : natCharsCore n [] =
          natCharsCore (n / 10) [] ++ [digitChar (n % 10)] := by
        rw [natCharsCore_rec hn [], natCharsCore_append (n / 10)]
      rw [hsplit]
      rw [List.foldl_append]
      rw [ih (n / 10) hd a]
      simp only [List.foldl_cons, List.foldl_nil, List.length_append,
        List.length_singleton]
      rw [digitChar_toNat (n % 10) (Nat.mod_lt n (by decide))]
      have h10 : 10 * (n / 10) + n % 10 = n := Nat.div_add_mod n 10
      have hm48 : 48 + n % 10 - 48 = n % 10 := by omega
      rw [hm48, Nat.add_mul, Nat.mul_assoc, ← pow_succ]
      omega

theorem natCharsCore_digits (n : Nat) : ∀ acc : List Char,
    (∀ c ∈ acc, c.isDigit = true) → ∀ c ∈ natCharsCore n acc, c.isDigit = true := by
  induction n using Nat.strong_induction_on with
  | _ n ih =>
    intro acc hacc
    by_cases hn : n = 0
    · subst hn; exact hacc
    · have hd : n / 10 < n := Nat.div_lt_self (Nat.pos_of_ne_zero hn) (by decide)
      rw [natCharsCore_rec hn acc]
      refine ih (n / 10) hd _ ?_
      intro c hc
      rcases List.mem_cons.1 hc with h | h
      · subst h; exact digitChar_isDigit _ (Nat.mod_lt n (by decide))
      · exact hacc c h

theorem natChars_digits (n : Nat) : ∀ c ∈ natChars n, c.isDigit = true := by
  by_cases hn : n = 0
  · subst hn; intro c hc; simp [natChars] at hc; subst hc; decide
  · intro c hc
    simp only [natChars, hn, if_false] at hc
    exact natCharsCore_digits n [] (by simp) c hc

theorem natChars_ne_nil (n : Nat) : natChars n ≠ [] := by
  by_cases hn : n = 0
  · subst hn; simp [natChars]
  · simp only [natChars, hn, if_false]
    rw [natCharsCore_rec hn [], natCharsCore_append (n / 10)]
    simp

theorem natChars_val (n : Nat) :
    List.foldl (fun a c => a * 10 + (c.toNat - 48)) 0 (natChars n) = n := by
  by_cases hn : n = 0
  · subst hn; rfl
  · simp only [natChars, hn, if_false]
    rw [natCharsCore_val n 0]
    simp

theorem parse_natChars {n : Nat} (h : n < 2 ^ 64) :
    parseUsizeChars (natChars n) = some n := by
  have hne := natChars_ne_nil n
  have hdig := natChars_digits n
  have hbody : dropPlusSign (natChars n) = natChars n := by
    cases hl : natChars n with
    | nil => exact absurd hl hne
    | cons c cs =>
      have hc : c.isDigit = true := hdig c (by rw [hl]; exact List.mem_cons_self c cs)
      have hcp : ¬ c = '+' := by
        intro he; rw [he] at hc; exact absurd hc (by decide)
      simp [dropPlusSign, hcp]
  unfold parseUsizeChars
  rw [hbody, if_neg hne, if_pos (List.all_eq_true.2 hdig), natChars_val n,
    if_pos h]

theorem isDelim_eq_false_of_isDigit {c : Char} (h : c.isDigit = true) :
    isDelim c = false := by
  by_cases h1 : c = '/'
  · subst h1; exact absurd h (by decide)
  · by_cases h2 : c = '.'
    · subst h2; exact absurd h (by decide)
    · simp [isDelim, h1, h2]

theorem splitChars_noDelim : ∀ {cs : List Char},
    (∀ c ∈ cs, isDelim c = false) → splitChars cs = [cs] := by
  intro cs
  induction cs with
  | nil => intro _; rfl
  | cons c rest ih =>
    intro h
    have hc : isDelim c = false := h c (List.mem_cons_self c rest)
    have hrest := ih (fun x hx => h x (List.mem_cons_of_mem c hx))
    simp [splitChars, hc, hrest]

theorem splitChars_append {xs : List Char} (ys : List Char)
    (h : ∀ c ∈ xs, isDelim c = false) :
    splitChars (xs ++ '/' :: ys) = xs :: splitChars ys := by
  induction xs with
  | nil => simp [splitChars, isDelim]
  | cons c rest ih =>
    have hc : isDelim c = false := h c (List.mem_cons_self c rest)
    have hrest := ih (fun x hx => h x (List.mem_cons_of_mem c hx))
    simp [splitChars, hc, hrest]

theorem mk_ne_empty {cs : List Char} (h : cs ≠ []) : String.mk cs ≠ "" := by
  intro he
  exact h (congrArg String.data he)

theorem buildPathStr_noDelim {k : String} (h : ∀ c ∈ k.data, isDelim c = false) :
    buildPathStr k = [k] := by
  unfold buildPathStr
  rw [splitChars_noDelim h]
  rfl

theorem pathFn_single_get (v : Value) (p : Step)
    (h : ¬ 1 < (buildPath p).length) : pathFn (some v) p = v.get p := by
  cases hg : v.get p with
  | some c => simp [pathFn, hg]
  | none => simp [pathFn, hg, h]

theorem pathMutFn_single_get (v : Value) (p : Step)
    (h : ¬ 1 < (buildPath p).length) : pathMutFn (some v) p = v.get p := by
  cases hg : v.get p with
  | some c => simp [pathMutFn, hg]
  | none => simp [pathMutFn, hg, h]

theorem applySegs_none : ∀ l, applySegs none l = none := by
  intro l; cases l <;> rfl

theorem applySegs_cons_table {t : List (String × Value)} {p : String}
    (rest : List String) (hp : p ≠ "") :
    applySegs (some (.table t)) (p :: rest) = applySegs (lookupT t p) rest := by
  simp [applySegs, hp]

theorem applySegs_cons_array_num {a : List Value} {p : String} {i : Nat}
    (rest : List String) (hp : p ≠ "") (hparse : parseUsizeChars p.data = some i) :
    applySegs (some (.array a)) (p :: rest) = applySegs (a.get? i) rest := by
  simp [applySegs, hp, hparse]

theorem applySegs_cons_array_skip {a : List Value} {p : String}
    (rest : List String) (hp : p ≠ "") (hparse : parseUsizeChars p.data = none) :
    applySegs (some (.array a)) (p :: rest) = applySegs (some (.array a)) rest := by
  simp [applySegs, hp, hparse]

theorem applySegs_cons_scalar (v : Value) {p : String} (rest : List String)
    (hp : p ≠ "") (ht : v.is_table = false) (ha : v.is_array = false) :
    applySegs (some v) (p :: rest) = none := by
  cases v with
  | table t => simp [Value.is_table] at ht
  | array a => simp [Value.is_array] at ha
  | str s => simp [applySegs, hp]
  | int i => simp [applySegs, hp]
  | float b => simp [applySegs, hp]
  | bool b => simp [applySegs, hp]
  | datetime s => simp [applySegs, hp]

theorem applyMutSegsV_none : ∀ l, applyMutSegsV none l = none := by
  intro l; cases l <;> rfl

theorem applyMutSegsV_cons_num {v : Value} {p : String} {i : Nat}
    (rest : List String) (hp : p ≠ "") (hparse : parseUsizeChars p.data = some i) :
    applyMutSegsV (some v) (p :: rest) = applyMutSegsV (getIdxV v i) rest := by
  simp [applyMutSegsV, hp, hparse]

theorem applyMutSegsV_cons_key {v : Value} {p : String} (rest : List String)
    (hp : p ≠ "") (hparse : parseUsizeChars p.data = none) :
    applyMutSegsV (some v) (p :: rest) = applyMutSegsV (getKeyV v p) rest := by
  simp [applyMutSegsV, hp, hparse]

theorem pathFn_walk {v : Value} {k : String} (hmiss : v.get (.str k) = none)
    (hlen : 1 < (buildPathStr k).length) :
    pathFn (some v) (.str k) = applySegs (some v) (buildPathStr k) := by
  simp [pathFn, hmiss, buildPath, hlen]

theorem pathMutFn_walk {v : Value} {k : String} (hmiss : v.get (.str k) = none)
    (hlen : 1 < (buildPathStr k).length) :
    pathMutFn (some v) (.str k) = applyMutSegsV (some v) (buildPathStr k) := by
  simp [pathMutFn, hmiss, buildPath, hlen]

theorem get_str_eq_getKeyV (v : Value) (k : String) :
    v.get (.str k) = getKeyV v k := by
  cases v <;> rfl

theorem get_num_eq_getIdxV (v : Value) (n : Nat) :
    v.get (.num n) = getIdxV v n := by
  cases v <;> rfl

theorem stepOk_str {k : String} (h : stepOkB (.str k) = true) :
    k.data ≠ [] ∧ (∀ c ∈ k.data, isDelim c = false) ∧
      parseUsizeChars k.data = none := by
  have h' : ((!k.data.isEmpty && k.data.all (fun c => !isDelim c)) &&
      (parseUsizeChars k.data).isNone) = true := h
  simp only [Bool.and_eq_true] at h'
  obtain ⟨⟨ha, hb⟩, hc⟩ := h'
  refine ⟨?_, ?_, ?_⟩
  · intro hnil; rw [hnil] at ha; exact absurd ha (by decide)
  · intro c hcm
    have hcb := List.all_eq_true.1 hb c hcm
    simpa using hcb
  · exact Option.isNone_iff_eq_none.1 hc

theorem stepOk_num {n : Nat} (h : stepOkB (.num n) = true) : n < 2 ^ 64 :=
  of_decide_eq_true h

theorem pathFn_step_get {v : Value} {s : Step} (hok : stepOkB s = true) :
    pathFn (some v) s = v.get s := by
  cases s with
  | str k =>
    obtain ⟨hne, hnd, hnp⟩ := stepOk_str hok
    exact pathFn_single_get v (.str k)
      (by rw [show buildPath (.str k) = [k] from buildPathStr_noDelim hnd]; simp)
  | num n => exact pathFn_single_get v (.num n) (by simp [buildPath])

theorem pathMutFn_step_get {v : Value} {s : Step} (hok : stepOkB s = true) :
    pathMutFn (some v) s = v.get s := by
  cases s with
  | str k =>
    obtain ⟨hne, hnd, hnp⟩ := stepOk_str hok
    exact pathMutFn_single_get v (.str k)
      (by rw [show buildPath (.str k) = [k] from buildPathStr_noDelim hnd]; simp)
  | num n => exact pathMutFn_single_get v (.num n) (by simp [buildPath])

theorem joinDelim_cons_cons (x y : List Char) (rest : List (List Char)) :
    joinDelim (x :: y :: rest) = x ++ '/' :: joinDelim (y :: rest) := rfl

theorem splitChars_joinDelim : ∀ segs : List (List Char), segs ≠ [] →
    (∀ s ∈ segs, ∀ c ∈ s, isDelim c = false) →
    splitChars (joinDelim segs) = segs := by
  intro segs
  induction segs with
  | nil => intro h _; exact absurd rfl h
  | cons s rest ih =>
    intro _ h
    cases rest with
    | nil => exact splitChars_noDelim (h s (List.mem_cons_self s []))
    | cons t rest2 =>
      have hs := h s (List.mem_cons_self s (t :: rest2))
      rw [joinDelim_cons_cons, splitChars_append _ hs,
        ih (by simp) (fun x hx c hc => h x (List.mem_cons_of_mem s hx) c hc)]

theorem lookupT_delim_miss {rt : List (String × Value)} {q : String}
    (hkeys : keysNoDelimT rt = true) (hq : ∃ c ∈ q.data, isDelim c = true) :
    lookupT rt q = none := by
  induction rt with
  | nil => rfl
  | cons kv rest ih =>
    obtain ⟨k0, v0⟩ := kv
    simp only [keysNoDelimT, Bool.and_eq_true] at hkeys
    obtain ⟨⟨hk0, _⟩, hrest⟩ := hkeys
    have hne : ¬ k0 = q := by
      intro he
      subst he
      obtain ⟨c, hc, hdel⟩ := hq
      have hnd := List.all_eq_true.1 hk0 c hc
      rw [hdel] at hnd
      exact absurd hnd (by decide)
    simp [lookupT, hne, ih hrest]

theorem applySegs_rendered_eq_chain : ∀ (steps : List Step) (ov : Option Value),
    (∀ s ∈ steps, stepOkB s = true) → chainOkR ov steps = true →
    applySegs ov (steps.map (fun s => String.mk (renderStep s))) =
      List.foldl pathFn ov steps := by
  intro steps
  induction steps with
  | nil => intro ov _ _; cases ov <;> rfl
  | cons s rest ih =>
    intro ov hok hchain
    have hoks : stepOkB s = true := hok s (List.mem_cons_self s rest)
    have hokr : ∀ x ∈ rest, stepOkB x = true :=
      fun x hx => hok x (List.mem_cons_of_mem s hx)
    cases ov with
    | none => rw [List.map_cons, applySegs_none, foldl_pathFn_none]
    | some v =>
      replace hchain :
          (stepNodeOk s v && chainOkR (pathFn (some v) s) rest) = true := hchain
      simp only [Bool.and_eq_true] at hchain
      obtain ⟨hhead, htail⟩ := hchain
      rw [pathFn_step_get hoks] at htail
      rw [List.map_cons, List.foldl_cons, pathFn_step_get hoks]
      cases s with
      | str k =>
        obtain ⟨hne, hnd, hnp⟩ := stepOk_str hoks
        have hkemp : ¬ String.mk (renderStep (.str k)) = "" := mk_ne_empty hne
        cases v with
        | table t =>
          rw [applySegs_cons_table _ hkemp]
          exact ih (lookupT t k) hokr htail
        | array a => simp [stepNodeOk] at hhead
        | str s0 =>
          rw [applySegs_cons_scalar (.str s0) _ hkemp rfl rfl]
          exact (foldl_pathFn_none rest).symm
        | int i0 =>
          rw [applySegs_cons_scalar (.int i0) _ hkemp rfl rfl]
          exact (foldl_pathFn_none rest).symm
        | float b0 =>
          rw [applySegs_cons_scalar (.float b0) _ hkemp rfl rfl]
          exact (foldl_pathFn_none rest).symm
        | bool b0 =>
          rw [applySegs_cons_scalar (.bool b0) _ hkemp rfl rfl]
          exact (foldl_pathFn_none rest).symm
        | datetime d0 =>
          rw [applySegs_cons_scalar (.datetime d0) _ hkemp rfl rfl]
          exact (foldl_pathFn_none rest).symm
      | num n =>
        have hlt : n < 2 ^ 64 := stepOk_num hoks
        have hparse : parseUsizeChars (String.mk (renderStep (.num n))).data
            = some n := parse_natChars hlt
        have hnemp : ¬ String.mk (renderStep (.num n)) = "" :=
          mk_ne_empty (natChars_ne_nil n)
        cases v with
        | array a =>
          rw [applySegs_cons_array_num _ hnemp hparse]
          exact ih (a.get? n) hokr htail
        | table t => simp [stepNodeOk] at hhead
        | str s0 =>
          rw [applySegs_cons_scalar (.str s0) _ hnemp rfl rfl]
          exact (foldl_pathFn_none rest).symm
        | int i0 =>
          rw [applySegs_cons_scalar (.int i0) _ hnemp rfl rfl]
          exact (foldl_pathFn_none rest).symm
        | float b0 =>
          rw [applySegs_cons_scalar (.float b0) _ hnemp rfl rfl]
          exact (foldl_pathFn_none rest).symm
        | bool b0 =>
          rw [applySegs_cons_scalar (.bool b0) _ hnemp rfl rfl]
          exact (foldl_pathFn_none rest).symm
        | datetime d0 =>
          rw [applySegs_cons_scalar (.datetime d0) _ hnemp rfl rfl]
          exact (foldl_pathFn_none rest).symm

theorem applyMutSegsV_rendered_eq_chain : ∀ (steps : List Step) (ov : Option Value),
    (∀ s ∈ steps, stepOkB s = true) →
    applyMutSegsV ov (steps.map (fun s => String.mk (renderStep s))) =
      List.foldl pathMutFn ov steps := by
  intro steps
  induction steps with
  | nil => intro ov _; cases ov <;> rfl
  | cons s rest ih =>
    intro ov hok
    have hoks : stepOkB s = true := hok s (List.mem_cons_self s rest)
    have hokr : ∀ x ∈ rest, stepOkB x = true :=
      fun x hx => hok x (List.mem_cons_of_mem s hx)
    cases ov with
    | none => rw [List.map_cons, applyMutSegsV_none, foldl_pathMutFn_none]
    | some v =>
      rw [List.map_cons, List.foldl_cons, pathMutFn_step_get hoks]
      cases s with
      | str k =>
        obtain ⟨hne, hnd, hnp⟩ := stepOk_str hoks
        have hkemp : ¬ String.mk (renderStep (.str k)) = "" := mk_ne_empty hne
        rw [applyMutSegsV_cons_key _ hkemp hnp, get_str_eq_getKeyV]
        exact ih (getKeyV v k) hokr
      | num n =>
        have hlt : n < 2 ^ 64 := stepOk_num hoks
        have hparse : parseUsizeChars (String.mk (renderStep (.num n))).data
            = some n := parse_natChars hlt
        have hnemp : ¬ String.mk (renderStep (.num n)) = "" :=
          mk_ne_empty (natChars_ne_nil n)
        rw [applyMutSegsV_cons_num _ hnemp hparse, get_num_eq_getIdxV]
        exact ih (getIdxV v n) hokr

/-! ### Claim theorems -/

/-- C3: resolution of a string (or integer) step first tries the whole step
as one direct lookup and returns that child when it exists, for both the
read resolver and the write resolver; splitting is only reached when the
direct lookup misses, and then only produces a result when more than one
segment arose — so a table key containing a `/` or `.` is reachable by a
single step carrying the literal key. -/
theorem direct_lookup_wins :
    (∀ (v : Value) (p : Step) (c : Value), v.get p = some c →
      pathFn (some v) p = some c ∧ pathMutFn (some v) p = some c) ∧
    (∀ (v : Value) (p : Step), v.get p = none → ¬ 1 < (buildPath p).length →
      pathFn (some v) p = none ∧ pathMutFn (some v) p = none) := by
  constructor
  · intro v p c h
    constructor
    · simp [pathFn, h]
    · simp [pathMutFn, h]
  · intro v p h hlen
    constructor
    · simp [pathFn, h, hlen]
    · simp [pathMutFn, h, hlen]

/-- C3 witness: a table key literally containing `/` is found by the direct
lookup of a single step. -/
theorem direct_lookup_wins_witness :
    pathFn (some (.table [("a/b", .int 1)])) (.str "a/b") = some (.int 1) ∧
    pathMutFn (some (.table [("a/b", .int 1)])) (.str "a/b") = some (.int 1) :=
  direct_lookup_wins.1 (.table [("a/b", .int 1)]) (.str "a/b") (.int 1) rfl

/-- C4: default extraction is total; it returns the stored scalar exactly
when the pointer is bound and the node's runtime kind equals the requested
kind, and the supplied default unchanged in every other case (empty
pointer, table or array node, or differing scalar kind) — in particular an
integer node queried as a float yields the default, with no numeric
coercion. -/
theorem extract_scalar_or_default (ov : Option Value) :
    (∀ s d, ov = some (.str s) → pipeStr ov d = s) ∧
    (∀ d, (∀ s, ov ≠ some (.str s)) → pipeStr ov d = d) ∧
    (∀ i d, ov = some (.int i) → pipeInt ov d = i) ∧
    (∀ d, (∀ i, ov ≠ some (.int i)) → pipeInt ov d = d) ∧
    (∀ b d, ov = some (.float b) → pipeFloat ov d = b) ∧
    (∀ d, (∀ b, ov ≠ some (.float b)) → pipeFloat ov d = d) ∧
    (∀ b d, ov = some (.bool b) → pipeBool ov d = b) ∧
    (∀ d, (∀ b, ov ≠ some (.bool b)) → pipeBool ov d = d) ∧
    (∀ i d, ov = some (.int i) → pipeFloat ov d = d) := by
  refine ⟨?_, ?_, ?_, ?_, ?_, ?_, ?_, ?_, ?_⟩
  · rintro s d rfl; rfl
  · intro d h
    match ov with
    | none => rfl
    | some (.str s) => exact absurd rfl (h s)
    | some (.int _) | some (.float _) | some (.bool _)
    | some (.datetime _) | some (.array _) | some (.table _) => rfl
  · rintro i d rfl; rfl
  · intro d h
    match ov with
    | none => rfl
    | some (.int i) => exact absurd rfl (h i)
    | some (.str _) | some (.float _) | some (.bool _)
    | some (.datetime _) | some (.array _) | some (.table _) => rfl
  · rintro b d rfl; rfl
  · intro d h
    match ov with
    | none => rfl
    | some (.float b) => exact absurd rfl (h b)
    | some (.str _) | some (.int _) | some (.bool _)
    | some (.datetime _) | some (.array _) | some (.table _) => rfl
  · rintro b d rfl; rfl
  · intro d h
    match ov with
    | none => rfl
    | some (.bool b) => exact absurd rfl (h b)
    | some (.str _) | some (.int _) | some (.float _)
    | some (.datetime _) | some (.array _) | some (.table _) => rfl
  · rintro i d rfl; rfl

/-- C4 witness: a matching float node yields its stored bits, an integer
node queried as float yields the default, an empty pointer yields the
default, and a table node queried as integer yields the default. -/
theorem extract_scalar_or_default_witness :
    pipeFloat (some (.float 42)) 7 = 42 ∧
    pipeFloat (some (.int 3)) 7 = 7 ∧
    pipeStr none "d" = "d" ∧
    pipeInt (some (.table [])) 9 = 9 := by
  refine ⟨?_, ?_, ?_, ?_⟩
  · exact (extract_scalar_or_default (some (.float 42))).2.2.2.2.1 42 7 rfl
  · exact (extract_scalar_or_default (some (.int 3))).2.2.2.2.2.2.2.2 3 7 rfl
  · exact (extract_scalar_or_default none).2.1 "d" (fun s h => Option.noConfusion h)
  · exact (extract_scalar_or_default (some (.table []))).2.2.2.1 9
      (fun i h => by simpa using h)

/-- C7: `Empty` is absorbing for the whole pointer state machine: a read
pointer that is `None` stays `None` under any resolution step and yields
the default under every extraction; a mutable pointer whose location is
`none` is returned as `none` with the document unchanged by every
resolution step and every mutation primitive, and its extraction yields the
default.  No operation maps an empty pointer back to a bound one. -/
theorem empty_absorbing :
    (∀ p, pathFn none p = none) ∧
    (∀ p, pathMutFn none p = none) ∧
    (∀ d, pipeStr none d = d) ∧
    (∀ d, pipeInt none d = d) ∧
    (∀ d, pipeFloat none d = d) ∧
    (∀ d, pipeBool none d = d) ∧
    (∀ root p, stepMut ⟨root, none⟩ p = ⟨root, none⟩) ∧
    (∀ root s, putString ⟨root, none⟩ s = ⟨root, none⟩) ∧
    (∀ root i, putInteger ⟨root, none⟩ i = ⟨root, none⟩) ∧
    (∀ root b, putFloat ⟨root, none⟩ b = ⟨root, none⟩) ∧
    (∀ root b, putBool ⟨root, none⟩ b = ⟨root, none⟩) ∧
    (∀ root k v, pushTable ⟨root, none⟩ k v = ⟨root, none⟩) ∧
    (∀ root v, pushArray ⟨root, none⟩ v = ⟨root, none⟩) ∧
    (∀ root v, assignMut ⟨root, none⟩ v = ⟨root, none⟩) ∧
    (∀ root d, pipeStr (mutView ⟨root, none⟩) d = d) ∧
    (∀ root d, pipeInt (mutView ⟨root, none⟩) d = d) := by
  refine ⟨fun p => rfl, fun p => rfl, fun d => rfl, fun d => rfl, fun d => rfl,
    fun d => rfl, fun root p => rfl, fun root s => rfl, fun root i => rfl,
    fun root b => rfl, fun root b => rfl, fun root k v => rfl, fun root v => rfl,
    fun root v => rfl, fun root d => rfl, fun root d => rfl⟩

/-- C10: `pathto` / `pathto_mut` apply the split multi-segment walk
directly, with no direct whole-string lookup tier, so the key `"a/b"` of
`docSlashKey` is unreachable through them (both give `Empty`), while a
single step on a pointer rooted with `path()` / `path_mut()` reaches it. -/
theorem pathto_skips_direct_tier :
    (∀ (v : Value) (p : String), pathto v p = applySegs (some v) (buildPathStr p)) ∧
    (∀ (v : Value) (p : String), pathto_mut v p = applyMutSegsV (some v) (buildPathStr p)) ∧
    pathto docSlashKey "a/b" = none ∧
    pathto_mut docSlashKey "a/b" = none ∧
    pathFn (some docSlashKey) (.str "a/b") = some (.int 7) ∧
    pathMutFn (some docSlashKey) (.str "a/b") = some (.int 7) :=
  ⟨fun v p => rfl, fun v p => rfl, rfl, rfl, rfl, rfl⟩

/-- C2 counterexample: on `docArrSkip`, the multi-segment read walk for
`"a/b"` reaches the array and meets the segment `"b"`, which does not parse
as a non-negative integer; the claim says the result is then `Empty`, but
the resolver returns the array node itself (the segment is skipped). -/
theorem read_walk_array_nonnum_counterexample :
    pathFn (some docArrSkip) (.str "a/b") = some (.array [.str "x"]) ∧
    pathFn (some docArrSkip) (.str "a/b") ≠ none :=
  ⟨rfl, fun h => Option.noConfusion h⟩

/-- C2 amended: in the read walk each non-empty segment dispatches on the
current node's tag — a table looks the segment up as a key, an array uses a
segment that parses as a non-negative integer as a bounds-checked index,
and a scalar fails immediately; a failed lookup makes the whole result
`Empty` without evaluating the remaining segments; but an array node met by
a segment that does not parse as a non-negative integer keeps the walk at
the array node (the segment is skipped) instead of failing.  The walk is
entered by the resolver exactly when the direct lookup misses and the split
produced more than one segment. -/
theorem read_walk_dispatch :
    (∀ rest, applySegs none rest = none) ∧
    (∀ t p rest, p ≠ "" →
      applySegs (some (.table t)) (p :: rest) = applySegs (lookupT t p) rest) ∧
    (∀ a p i rest, p ≠ "" → parseUsizeChars p.data = some i →
      applySegs (some (.array a)) (p :: rest) = applySegs (a.get? i) rest) ∧
    (∀ a p rest, p ≠ "" → parseUsizeChars p.data = none →
      applySegs (some (.array a)) (p :: rest) = applySegs (some (.array a)) rest) ∧
    (∀ v p rest, p ≠ "" → v.is_table = false → v.is_array = false →
      applySegs (some v) (p :: rest) = none) ∧
    (∀ v rest, applySegs (some v) ("" :: rest) = applySegs (some v) rest) ∧
    (∀ v k, Value.get v (.str k) = none → 1 < (buildPathStr k).length →
      pathFn (some v) (.str k) = applySegs (some v) (buildPathStr k)) := by
  refine ⟨?_, ?_, ?_, ?_, ?_, ?_, ?_⟩
  · intro rest; cases rest <;> rfl
  · intro t p rest hp; simp [applySegs, hp]
  · intro a p i rest hp hparse; simp [applySegs, hp, hparse]
  · intro a p rest hp hparse; simp [applySegs, hp, hparse]
  · intro v p rest hp ht ha
    cases v with
    | table t => simp [Value.is_table] at ht
    | array a => simp [Value.is_array] at ha
    | str s => simp [applySegs, hp]
    | int i => simp [applySegs, hp]
    | float b => simp [applySegs, hp]
    | bool b => simp [applySegs, hp]
    | datetime s => simp [applySegs, hp]
  · intro v rest; simp [applySegs]
  · intro v k hmiss hlen; simp [pathFn, hmiss, buildPath, hlen]

/-- C2 amended witness: on `docArrSkip`, a missing table key stops the walk
with `Empty` without looking at later segments, a scalar stops the walk
immediately, and a non-numeric segment at the array is skipped. -/
theorem read_walk_dispatch_witness :
    applySegs (some docArrSkip) ("zz" :: ["x", "y"]) = none ∧
    applySegs (some (.str "s")) ("a" :: ["b"]) = none ∧
    applySegs (some (.array [.str "x"])) ("b" :: []) =
      applySegs (some (.array [.str "x"])) [] ∧
    pathFn (some docArrSkip) (.str "a/b") =
      applySegs (some docArrSkip) (buildPathStr "a/b") := by
  refine ⟨?_, ?_, ?_, ?_⟩
  · have h := read_walk_dispatch.2.1 [("a", .array [.str "x"])] "zz" ["x", "y"]
      (by decide)
    rw [docArrSkip, h]; rfl
  · exact read_walk_dispatch.2.2.2.2.1 (.str "s") "a" ["b"] (by decide) rfl rfl
  · exact read_walk_dispatch.2.2.2.1 [.str "x"] "b" [] (by decide) rfl
  · exact read_walk_dispatch.2.2.2.2.2.2 docArrSkip "a/b" rfl (by decide)

/-- C5: an overwrite-if-type-matches primitive succeeds exactly when the
pointer is bound to a scalar node of the written value's kind: on a match
the pointer stays on the same location, which now holds the new value; on a
kind mismatch (or a table/array node) the pointer is invalidated and the
document is returned unchanged. -/
theorem overwrite_iff_kind_matches (root : Value) (l : List Seg) (v : Value)
    (h : getLoc root l = some v) :
    (∀ s, v.is_str = true →
      putString ⟨root, some l⟩ s = ⟨setLoc root l (.str s), some l⟩ ∧
      getLoc (setLoc root l (.str s)) l = some (.str s)) ∧
    (∀ s, v.is_str = false → putString ⟨root, some l⟩ s = ⟨root, none⟩) ∧
    (∀ i, v.is_integer = true →
      putInteger ⟨root, some l⟩ i = ⟨setLoc root l (.int i), some l⟩ ∧
      getLoc (setLoc root l (.int i)) l = some (.int i)) ∧
    (∀ i, v.is_integer = false → putInteger ⟨root, some l⟩ i = ⟨root, none⟩) ∧
    (∀ b, v.is_float = true →
      putFloat ⟨root, some l⟩ b = ⟨setLoc root l (.float b), some l⟩ ∧
      getLoc (setLoc root l (.float b)) l = some (.float b)) ∧
    (∀ b, v.is_float = false → putFloat ⟨root, some l⟩ b = ⟨root, none⟩) ∧
    (∀ b, v.is_bool = true →
      putBool ⟨root, some l⟩ b = ⟨setLoc root l (.bool b), some l⟩ ∧
      getLoc (setLoc root l (.bool b)) l = some (.bool b)) ∧
    (∀ b, v.is_bool = false → putBool ⟨root, some l⟩ b = ⟨root, none⟩) ∧
    (∀ (r2 : Value) (s : String), putString ⟨r2, none⟩ s = ⟨r2, none⟩) ∧
    (∀ (r2 : Value) (i : Int), putInteger ⟨r2, none⟩ i = ⟨r2, none⟩) ∧
    (∀ (r2 : Value) (b : Nat), putFloat ⟨r2, none⟩ b = ⟨r2, none⟩) ∧
    (∀ (r2 : Value) (b : Bool), putBool ⟨r2, none⟩ b = ⟨r2, none⟩) := by
  refine ⟨?_, ?_, ?_, ?_, ?_, ?_, ?_, ?_, ?_, ?_, ?_, ?_⟩
  · intro s hs
    exact ⟨by simp [putString, h, hs], getLoc_setLoc_self _ h⟩
  · intro s hs; simp [putString, h, hs]
  · intro i hi
    exact ⟨by simp [putInteger, h, hi], getLoc_setLoc_self _ h⟩
  · intro i hi; simp [putInteger, h, hi]
  · intro b hb
    exact ⟨by simp [putFloat, h, hb], getLoc_setLoc_self _ h⟩
  · intro b hb; simp [putFloat, h, hb]
  · intro b hb
    exact ⟨by simp [putBool, h, hb], getLoc_setLoc_self _ h⟩
  · intro b hb; simp [putBool, h, hb]
  · intro r2 s; rfl
  · intro r2 i; rfl
  · intro r2 b; rfl
  · intro r2 b; rfl

/-- C5 witness: on a document holding a string under key `"k"`, a string
overwrite succeeds and the document then holds the new string at the same
location; an integer overwrite of the same node is refused with the
document unchanged. -/
theorem overwrite_iff_kind_matches_witness :
    putString ⟨.table [("k", .str "old")], some [Seg.key "k"]⟩ "new" =
      ⟨.table [("k", .str "new")], some [Seg.key "k"]⟩ ∧
    putInteger ⟨.table [("k", .str "old")], some [Seg.key "k"]⟩ 5 =
      ⟨.table [("k", .str "old")], none⟩ := by
  have h := overwrite_iff_kind_matches (.table [("k", .str "old")])
    [Seg.key "k"] (.str "old") rfl
  exact ⟨(h.1 "new" rfl).1, h.2.2.2.1 5 rfl⟩

/-- C6: `reassign` replaces the referenced node's value unconditionally
when the pointer is bound — any kind change is allowed — and keeps the
pointer bound to that location, which afterwards holds the new value; on an
empty pointer it is a silent no-op that leaves the document unchanged and
creates nothing. -/
theorem reassign_unconditional (root : Value) (l : List Seg) (v rhs : Value)
    (h : getLoc root l = some v) :
    assignMut ⟨root, some l⟩ rhs = ⟨setLoc root l rhs, some l⟩ ∧
    getLoc (setLoc root l rhs) l = some rhs ∧
    (∀ (r2 rhs2 : Value), assignMut ⟨r2, none⟩ rhs2 = ⟨r2, none⟩) :=
  ⟨by simp [assignMut, h], getLoc_setLoc_self _ h, fun r2 rhs2 => rfl⟩

/-- C6 witness: reassigning a scalar node to a table succeeds (kind change
allowed) and the document holds the table at that location afterwards. -/
theorem reassign_unconditional_witness :
    assignMut ⟨.table [("k", .int 1)], some [Seg.key "k"]⟩ (.table []) =
      ⟨.table [("k", .table [])], some [Seg.key "k"]⟩ ∧
    getLoc (.table [("k", .table [])]) [Seg.key "k"] = some (.table []) := by
  have h := reassign_unconditional (.table [("k", .int 1)]) [Seg.key "k"]
    (.int 1) (.table []) rfl
  exact ⟨h.1, h.2.1⟩

/-- C9: for an array node and an in-bounds position `i`, a single string
step carrying the decimal text of `i` resolves to `Empty` (the direct
lookup treats a string step as a table key only, and a single-segment
split never enters the walk), while the same step given as the integer `i`
resolves to the element. -/
theorem single_numeric_step (a : List Value) (i : Nat) (h : i < a.length) :
    pathFn (some (.array a)) (.str (String.mk (natChars i))) = none ∧
    pathFn (some (.array a)) (.num i) = a.get? i ∧
    (a.get? i).isSome = true := by
  refine ⟨?_, ?_, ?_⟩
  · have hnd : ∀ c ∈ (String.mk (natChars i)).data, isDelim c = false :=
      fun c hc => isDelim_eq_false_of_isDigit (natChars_digits i c hc)
    have hb : buildPath (.str (String.mk (natChars i))) = [String.mk (natChars i)] :=
      buildPathStr_noDelim hnd
    rw [pathFn_single_get (.array a) (.str (String.mk (natChars i)))
      (by rw [hb]; simp)]
    rfl
  · exact pathFn_single_get (.array a) (.num i) (by simp [buildPath])
  · rw [List.get?_eq_getElem?]
    simp [List.getElem?_eq_getElem h]

/-- C9 witness: on a two-element array, the string step `"1"` gives
`Empty` while the integer step `1` gives the second element. -/
theorem single_numeric_step_witness :
    pathFn (some (.array [.str "x", .str "y"])) (.str (String.mk (natChars 1))) = none ∧
    pathFn (some (.array [.str "x", .str "y"])) (.num 1) = some (.str "y") ∧
    String.mk (natChars 1) = "1" := by
  have h := single_numeric_step [.str "x", .str "y"] 1 (by decide)
  exact ⟨h.1, h.2.1, rfl⟩

/-- C8 counterexample: the write walk misroutes a digits-only key to
array-index semantics only when the digits parse as a `usize`; the
20-digit key of `docBigNumKey` spells `2^64`, its parse overflows, so the
write-side multi-segment path through it resolves to the keyed child, not
to `Empty` as the claim states for every digits-only key. -/
theorem numeric_key_write_counterexample :
    "18446744073709551616".data.all Char.isDigit = true ∧
    pathMutFn (some docBigNumKey) (.str "a/18446744073709551616") =
      some (.int 7) ∧
    (pathMutFn (some docBigNumKey) (.str "a/18446744073709551616")).isSome
      = true :=
  ⟨rfl, rfl, rfl⟩

/-- C8 amended: in the write walk every non-empty segment is classified by
parsing it as a `usize`, and a successful parse is treated as an array
index regardless of the current node's tag; hence a multi-segment write
path through a table key that parses as a `usize` (digits only, value
below `2^64`) resolves to `Empty`, while the tag-dispatching read walk
resolves the same path to the keyed child. -/
theorem numeric_key_write_misroute (rt t : List (String × Value)) (k1 k : String)
    (c : Value) (i : Nat)
    (hk1ne : k1.data ≠ [])
    (hk1nd : ∀ ch ∈ k1.data, isDelim ch = false)
    (hrt : lookupT rt k1 = some (.table t))
    (hk : lookupT t k = some c)
    (hkdig : ∀ ch ∈ k.data, ch.isDigit = true)
    (hkparse : parseUsizeChars k.data = some i)
    (hmiss : lookupT rt (String.mk (k1.data ++ '/' :: k.data)) = none) :
    pathMutFn (some (.table rt)) (.str (String.mk (k1.data ++ '/' :: k.data)))
      = none ∧
    pathFn (some (.table rt)) (.str (String.mk (k1.data ++ '/' :: k.data)))
      = some c := by
  have hkne : k.data ≠ [] := by
    intro h0
    rw [h0] at hkparse
    simp [parseUsizeChars, dropPlusSign] at hkparse
  have hknd : ∀ ch ∈ k.data, isDelim ch = false :=
    fun ch hch => isDelim_eq_false_of_isDigit (hkdig ch hch)
  have hsplit : buildPathStr (String.mk (k1.data ++ '/' :: k.data)) =
      [k1, k] := by
    unfold buildPathStr
    show (splitChars (k1.data ++ '/' :: k.data)).map String.mk = _
    rw [splitChars_append _ hk1nd, splitChars_noDelim hknd]
    rfl
  have hget : Value.get (.table rt) (.str (String.mk (k1.data ++ '/' :: k.data)))
      = none := hmiss
  have hk1emp : ¬ k1 = "" := by
    intro he; exact hk1ne (congrArg String.data he)
  have hkemp : ¬ k = "" := by
    intro he; exact hkne (congrArg String.data he)
  have hlen : 1 < (buildPathStr (String.mk (k1.data ++ '/' :: k.data))).length := by
    rw [hsplit]; simp
  constructor
  · rw [pathMutFn_walk hget hlen, hsplit]
    cases hp1 : parseUsizeChars k1.data with
    | some j =>
      rw [applyMutSegsV_cons_num [k] hk1emp hp1]
      exact applyMutSegsV_none [k]
    | none =>
      rw [applyMutSegsV_cons_key [k] hk1emp hp1]
      show applyMutSegsV (lookupT rt k1) [k] = none
      rw [hrt]
      rw [applyMutSegsV_cons_num [] hkemp hkparse]
      exact applyMutSegsV_none []
  · rw [pathFn_walk hget hlen, hsplit]
    rw [applySegs_cons_table [k] hk1emp]
    rw [hrt]
    rw [applySegs_cons_table [] hkemp]
    rw [hk]
    rfl

/-- C8 amended witness: with the nested numeric key `"1"` holding `5`, the
write-side path `"a/1"` is `Empty` while the read-side path reaches `5`. -/
theorem numeric_key_write_misroute_witness :
    pathMutFn (some (.table [("a", .table [("1", .int 5)])]))
      (.str (String.mk ("a".data ++ '/' :: "1".data))) = none ∧
    pathFn (some (.table [("a", .table [("1", .int 5)])]))
      (.str (String.mk ("a".data ++ '/' :: "1".data))) = some (.int 5) := by
  have h := numeric_key_write_misroute [("a", .table [("1", .int 5)])]
    [("1", .int 5)] "a" "1" (.int 5) 1 (by decide) (by decide) rfl rfl
    (by decide) (by decide) rfl
  exact h

/-- C1 counterexample: on `docNumKey` — whose table keys `"t"` and `"1"`
contain no delimiter — the chained write-resolver steps
`step("t"), step("1")` reach the value `7`, but the equivalent compound
path string `"t/1"` resolves to `Empty` on the write resolver (the segment
`"1"` parses as a `usize` and is misrouted to array-index semantics), so
compound resolution does not equal chaining. -/
theorem compound_chain_counterexample :
    keysNoDelim docNumKey = true ∧
    compoundStr [.str "t", .str "1"] = "t/1" ∧
    List.foldl pathMutFn (some docNumKey) [.str "t", .str "1"] =
      some (.int 7) ∧
    pathMutFn (some docNumKey) (.str "t/1") = none :=
  ⟨rfl, rfl, rfl, rfl⟩

/-- C1 amended: compound-path resolution equals chaining for both the read
and the write resolver, provided additionally that the path has at least
two steps, every string step is non-empty, delimiter-free and does not
itself parse as a non-negative integer below `2^64`, every integer step is
below `2^64`, and (for the read resolver's dispatch-by-tag) along the
chained read run no string step is applied at an array node and no integer
step at a table node. -/
theorem compound_path_equals_chain (root : Value) (steps : List Step)
    (hlen : 2 ≤ steps.length)
    (hok : ∀ s ∈ steps, stepOkB s = true)
    (hkeys : keysNoDelim root = true)
    (hchain : chainOkR (some root) steps = true) :
    pathFn (some root) (.str (compoundStr steps)) =
      List.foldl pathFn (some root) steps ∧
    pathMutFn (some root) (.str (compoundStr steps)) =
      List.foldl pathMutFn (some root) steps := by
  obtain ⟨s1, s2, rest, rfl⟩ : ∃ s1 s2 rest, steps = s1 :: s2 :: rest := by
    cases steps with
    | nil => simp at hlen
    | cons s1 tail =>
      cases tail with
      | nil => simp at hlen
      | cons s2 rest => exact ⟨s1, s2, rest, rfl⟩
  have hrnd : ∀ s0 ∈ (s1 :: s2 :: rest).map renderStep, ∀ c ∈ s0,
      isDelim c = false := by
    intro s0 hs0 c hc
    obtain ⟨st, hst, rfl⟩ := List.mem_map.1 hs0
    cases st with
    | str k => exact (stepOk_str (hok _ hst)).2.1 c hc
    | num n => exact isDelim_eq_false_of_isDigit (natChars_digits n c hc)
  have hsplit : splitChars (joinDelim ((s1 :: s2 :: rest).map renderStep)) =
      (s1 :: s2 :: rest).map renderStep :=
    splitChars_joinDelim _ (by simp) hrnd
  have hbuild : buildPathStr (compoundStr (s1 :: s2 :: rest)) =
      (s1 :: s2 :: rest).map (fun s => String.mk (renderStep s)) := by
    unfold buildPathStr compoundStr
    rw [show (String.mk (joinDelim ((s1 :: s2 :: rest).map renderStep))).data =
      joinDelim ((s1 :: s2 :: rest).map renderStep) from rfl]
    rw [hsplit, List.map_map]
    rfl
  have hblen : 1 < (buildPathStr (compoundStr (s1 :: s2 :: rest))).length := by
    rw [hbuild]; simp
  have hslash : ∃ c ∈ (compoundStr (s1 :: s2 :: rest)).data, isDelim c = true := by
    refine ⟨'/', ?_, by decide⟩
    show '/' ∈ joinDelim ((s1 :: s2 :: rest).map renderStep)
    rw [List.map_cons, List.map_cons, joinDelim_cons_cons]
    exact List.mem_append_right _ (List.mem_cons_self _ _)
  have hmiss : Value.get root (.str (compoundStr (s1 :: s2 :: rest))) = none := by
    cases root with
    | table rt =>
      have hkt : keysNoDelimT rt = true := hkeys
      exact lookupT_delim_miss hkt hslash
    | array a => rfl
    | str s => rfl
    | int i => rfl
    | float b => rfl
    | bool b => rfl
    | datetime d => rfl
  constructor
  · rw [pathFn_walk hmiss hblen, hbuild]
    exact applySegs_rendered_eq_chain _ (some root) hok hchain
  · rw [pathMutFn_walk hmiss hblen, hbuild]
    exact applyMutSegsV_rendered_eq_chain _ (some root) hok

/-- C1 amended witness: on the spec's `host` document, the compound path
`"host/protocol/1"` and the chain `step("host"), step("protocol"),
step(1)` both reach `"udp"`, on the read resolver and on the write
resolver. -/
theorem compound_path_equals_chain_witness :
    pathFn (some docHost)
      (.str (compoundStr [.str "host", .str "protocol", .num 1])) =
      List.foldl pathFn (some docHost)
        [.str "host", .str "protocol", .num 1] ∧
    pathMutFn (some docHost)
      (.str (compoundStr [.str "host", .str "protocol", .num 1])) =
      List.foldl pathMutFn (some docHost)
        [.str "host", .str "protocol", .num 1] ∧
    List.foldl pathFn (some docHost) [.str "host", .str "protocol", .num 1] =
      some (.str "udp") ∧
    compoundStr [.str "host", .str "protocol", .num 1] = "host/protocol/1" := by
  have h := compound_path_equals_chain docHost
    [.str "host", .str "protocol", .num 1]
    (by decide) (by decide) rfl rfl
  exact ⟨h.1, h.2, rfl, rfl⟩

end TomlOps
